import Mathlib

/-!
Verification of the HL7 middleware codec (`src/main.go`).

Strings are modelled as `List Char`.  The Go functions embedded here are:

* `GenerateMessage` (serialize): a `strings.Builder` loop, modelled as a
  left fold accumulating the output character list.
* `ParseHL7Message` (parse): a `bufio.Scanner` with a custom split
  function that emits the text before each `'\r'` and, at end of input,
  the non-empty remainder (an empty remainder ends the scan); each
  non-empty token is then split on `'|'`, the head becoming the segment
  type and the tail the fields.  The scanner uses the default buffer, so
  a separator-free run reaching `bufio.MaxScanTokenSize` (64 KiB) stops
  the scan with `bufio.ErrTooLong`, which `scanner.Err()` surfaces as
  the function's error return; this bound and error path are modelled.
  One `Char` here stands for one input byte (HL7 wire text is ASCII).
* `AddSegment`, `NewHL7Message`: the message-building operations.
-/

namespace HL7

/-- Segment separator constant (`SegmentSeparator = "\r"` in the source;
a single-character delimiter, modelled as a `Char`). -/
def SegmentSeparator : Char := '\r'

/-- Field separator constant (`FieldSeparator = "|"` in the source). -/
def FieldSeparator : Char := '|'

/-- Default cap of `bufio.Scanner` on the size of one token
(`bufio.MaxScanTokenSize` = 64 KiB).  The scanner's buffer grows only up
to this size, so once this many bytes accumulate with no separator found
and no end of input seen, the scan stops with `bufio.ErrTooLong`. -/
def MaxScanTokenSize : Nat := 65536

/-- Message text of `bufio.ErrTooLong`, the error `scanner.Err()`
reports when a token would exceed `MaxScanTokenSize`. -/
def ErrTooLong : String := "bufio.Scanner: token too long"

/-- An HL7 segment: a type code and an ordered list of fields
(struct `Segment` in the source). -/
structure Segment where
  type : List Char
  fields : List (List Char)
deriving DecidableEq, Repr

/-- A complete HL7 message: an ordered list of segments
(struct `HL7Message` in the source). -/
structure HL7Message where
  Segments : List Segment
deriving DecidableEq, Repr

instance {ε α : Type} [DecidableEq ε] [DecidableEq α] :
    DecidableEq (Except ε α)
  | .error a, .error b =>
    if h : a = b then .isTrue (by rw [h])
    else .isFalse (fun hc => h (by cases hc; rfl))
  | .error _, .ok _ => .isFalse Except.noConfusion
  | .ok _, .error _ => .isFalse Except.noConfusion
  | .ok a, .ok b =>
    if h : a = b then .isTrue (by rw [h])
    else .isFalse (fun hc => h (by cases hc; rfl))

/-- NewHL7Message creates an empty message. -/
def NewHL7Message : HL7Message := ⟨[]⟩

/-- AddSegment appends a new segment built from the given type and field
list (variadic in Go, a list here). -/
def AddSegment (m : HL7Message) (segmentType : List Char)
    (fields : List (List Char)) : HL7Message :=
  ⟨m.Segments ++ [⟨segmentType, fields⟩]⟩

/-- GenerateMessage: for each segment in order, write its type, then for
each field write the field separator followed by the field, then write
the segment separator.  The `strings.Builder` is the fold accumulator. -/
def GenerateMessage (m : HL7Message) : List Char :=
  m.Segments.foldl
    (fun acc segment =>
      (segment.fields.foldl
        (fun a field => a ++ FieldSeparator :: field)
        (acc ++ segment.type)) ++ [SegmentSeparator])
    []

/-- Go's `strings.Split(s, sep)` for a one-character separator: the
list of maximal separator-free chunks; splitting the empty string gives
one empty chunk, so the result is never empty. -/
def splitOnChar (sep : Char) : List Char → List (List Char)
  | [] => [[]]
  | c :: rest =>
    if c = sep then
      [] :: splitOnChar sep rest
    else
      match splitOnChar sep rest with
      | [] => [[c]]
      | p :: ps => (c :: p) :: ps

/-- The scanner loop of `ParseHL7Message` with the custom split
function: `cur` is the (reversed) buffered text read since the last
separator.  Meeting the separator emits it as a token; at end of input
the remainder is emitted only if non-empty (`atEOF && len(data) == 0`
stops the scan).  Whenever `MaxScanTokenSize` bytes are buffered with no
separator found — even if a separator or the end of input comes next,
since the scanner cannot grow its full buffer to look further — the scan
fails with `ErrTooLong`. -/
def scanTokensGo (sep : Char) (cur : List Char) :
    List Char → Except String (List (List Char))
  | [] =>
    if cur = [] then .ok []
    else if cur.length ≥ MaxScanTokenSize then .error ErrTooLong
    else .ok [cur.reverse]
  | c :: rest =>
    if cur.length ≥ MaxScanTokenSize then .error ErrTooLong
    else if c = sep then
      match scanTokensGo sep [] rest with
      | .error e => .error e
      | .ok toks => .ok (cur.reverse :: toks)
    else scanTokensGo sep (c :: cur) rest

/-- Tokens produced by the scanner on the whole input, or the scan
error `scanner.Err()` reports. -/
def scanTokens (sep : Char) (data : List Char) :
    Except String (List (List Char)) :=
  scanTokensGo sep [] data

/-- The body of the `for scanner.Scan()` loop: zero-length tokens are
skipped; otherwise the token is split on the field separator, the first
piece is the segment type and the rest are the fields; fewer than one
piece is the `"invalid segment format"` error. -/
def parseChunks : List (List Char) → Except String (List Segment)
  | [] => .ok []
  | chunk :: rest =>
    if chunk.length = 0 then
      parseChunks rest
    else
      match splitOnChar FieldSeparator chunk with
      | [] => .error "invalid segment format"
      | t :: fs =>
        match parseChunks rest with
        | .error e => .error e
        | .ok segs => .ok (⟨t, fs⟩ :: segs)

/-- ParseHL7Message parses an HL7 message string into an HL7Message.
A scan failure (`bufio.ErrTooLong` through the `scanner.Err()` check at
`main.go:119-121`) discards any segments already appended and is
returned to the caller; otherwise the scanned tokens are parsed by the
loop body. -/
def ParseHL7Message (messageStr : List Char) : Except String HL7Message :=
  match scanTokens SegmentSeparator messageStr with
  | .error e => .error e
  | .ok toks =>
    match parseChunks toks with
    | .error e => .error e
    | .ok segs => .ok ⟨segs⟩

/-- Joining the pieces of a field split back with the separator:
the head piece, then each further piece prefixed by the separator. -/
def joinParts (sep : Char) : List (List Char) → List Char
  | [] => []
  | p :: ps => p ++ (ps.map (fun q => sep :: q)).flatten

/-- Wire text of one segment, without the terminating segment
separator: the type, then each field prefixed by the field separator. -/
def chunkOf (seg : Segment) : List Char :=
  seg.type ++ (seg.fields.map (fun f => FieldSeparator :: f)).flatten

/-- Serialization as the spec (§4.3) words it: for each segment in
order, its type, then each field prefixed by the field separator, then
the segment separator after the last field, concatenated with nothing
else added. -/
def serializeSpec (m : HL7Message) : List Char :=
  (m.Segments.map (fun s =>
    s.type ++ (s.fields.map (fun f => FieldSeparator :: f)).flatten
      ++ [SegmentSeparator])).flatten

/-- The two-segment message of the end-to-end scenario, built with
`AddSegment`. -/
def scenarioMessage : HL7Message :=
  AddSegment
    (AddSegment NewHL7Message "MSH".toList
      ["^~\\&".toList, "APP".toList, "FAC".toList])
    "PID".toList
    ["".toList, "123".toList, "".toList, "".toList, "Doe^John".toList]

/-! ### Properties of `splitOnChar` (Go `strings.Split`) -/

theorem splitOnChar_ne_nil (sep : Char) (l : List Char) :
    splitOnChar sep l ≠ [] := by
  induction l with
  | nil => simp [splitOnChar]
  | cons c rest ih =>
    simp only [splitOnChar]
    split
    · simp
    · split
      · simp
      · simp

theorem splitOnChar_not_mem {sep : Char} {l : List Char} (h : sep ∉ l) :
    splitOnChar sep l = [l] := by
  induction l with
  | nil => rfl
  | cons c rest ih =>
    have hc : ¬ c = sep := fun hc => h (hc ▸ List.mem_cons_self c rest)
    have hr : sep ∉ rest := fun hr => h (List.mem_cons_of_mem c hr)
    simp only [splitOnChar, if_neg hc, ih hr]

theorem splitOnChar_append_sep {sep : Char} {a : List Char} (b : List Char)
    (h : sep ∉ a) :
    splitOnChar sep (a ++ sep :: b) = a :: splitOnChar sep b := by
  induction a with
  | nil => simp [splitOnChar]
  | cons c a' ih =>
    have hc : ¬ c = sep := fun hc => h (hc ▸ List.mem_cons_self c a')
    have ha : sep ∉ a' := fun ha => h (List.mem_cons_of_mem c ha)
    simp only [List.cons_append, splitOnChar, if_neg hc, List.append_eq, ih ha]

theorem joinParts_splitOnChar (sep : Char) (l : List Char) :
    joinParts sep (splitOnChar sep l) = l := by
  induction l with
  | nil => rfl
  | cons c rest ih =>
    obtain ⟨p, ps, hps⟩ : ∃ p ps, splitOnChar sep rest = p :: ps := by
      cases hsp : splitOnChar sep rest with
      | nil => exact absurd hsp (splitOnChar_ne_nil sep rest)
      | cons p ps => exact ⟨p, ps, rfl⟩
    by_cases hc : c = sep
    · subst hc
      rw [show splitOnChar c (c :: rest) = [] :: splitOnChar c rest by
        simp [splitOnChar]]
      rw [hps]
      have hj : joinParts c ([] :: p :: ps) = c :: joinParts c (p :: ps) := by
        simp [joinParts]
      rw [hj, ← hps, ih]
    · rw [show splitOnChar sep (c :: rest)
          = match splitOnChar sep rest with
            | [] => [[c]]
            | p :: ps => (c :: p) :: ps by simp [splitOnChar, hc]]
      rw [hps]
      have hj : joinParts sep ((c :: p) :: ps) = c :: joinParts sep (p :: ps) := by
        simp [joinParts]
      rw [show (match p :: ps with
            | [] => [[c]]
            | p :: ps => (c :: p) :: ps) = (c :: p) :: ps from rfl, hj, ← hps, ih]

theorem splitOnChar_head_or_tail {sep : Char} {l t : List Char}
    {fs : List (List Char)} (hl : l ≠ []) (h : splitOnChar sep l = t :: fs) :
    t ≠ [] ∨ fs ≠ [] := by
  cases l with
  | nil => exact absurd rfl hl
  | cons c rest =>
    by_cases hc : c = sep
    · subst hc
      rw [show splitOnChar c (c :: rest) = [] :: splitOnChar c rest by
        simp [splitOnChar]] at h
      obtain ⟨ht, hfs⟩ := List.cons.inj h
      exact Or.inr (hfs ▸ splitOnChar_ne_nil c rest)
    · rw [show splitOnChar sep (c :: rest)
          = match splitOnChar sep rest with
            | [] => [[c]]
            | p :: ps => (c :: p) :: ps by simp [splitOnChar, hc]] at h
      cases hsp : splitOnChar sep rest with
      | nil => exact absurd hsp (splitOnChar_ne_nil sep rest)
      | cons p ps =>
        rw [hsp] at h
        obtain ⟨ht, hfs⟩ := List.cons.inj h
        exact Or.inl (ht ▸ List.cons_ne_nil c p)

/-! ### Properties of the segment scanner -/

theorem scanTokensGo_no_sep {sep : Char} {a : List Char} (cur : List Char)
    (h : sep ∉ a) (hlen : cur.length + a.length < MaxScanTokenSize) :
    scanTokensGo sep cur a =
      .ok (if cur.reverse ++ a = [] then [] else [cur.reverse ++ a]) := by
  induction a generalizing cur with
  | nil =>
    have hge : ¬ cur.length ≥ MaxScanTokenSize := by
      simp only [List.length_nil] at hlen
      omega
    simp only [scanTokensGo, List.append_nil]
    by_cases hcur : cur = []
    · simp [hcur]
    · simp [hcur, hge, List.reverse_eq_nil_iff]
  | cons c a' ih =>
    have hc : ¬ c = sep := fun hc => h (hc ▸ List.mem_cons_self c a')
    have ha : sep ∉ a' := fun ha => h (List.mem_cons_of_mem c ha)
    have hge : ¬ cur.length ≥ MaxScanTokenSize := by
      simp only [List.length_cons] at hlen
      omega
    have hlen' : (c :: cur).length + a'.length < MaxScanTokenSize := by
      simp only [List.length_cons] at hlen ⊢
      omega
    simp only [scanTokensGo, if_neg hge, if_neg hc, ih (c :: cur) ha hlen',
      List.reverse_cons, List.append_assoc, List.singleton_append]

theorem scanTokensGo_append_sep {sep : Char} {a : List Char}
    (cur b : List Char) (h : sep ∉ a)
    (hlen : cur.length + a.length < MaxScanTokenSize) :
    scanTokensGo sep cur (a ++ sep :: b) =
      (scanTokensGo sep [] b).map
        (fun toks => (cur.reverse ++ a) :: toks) := by
  induction a generalizing cur with
  | nil =>
    have hge : ¬ cur.length ≥ MaxScanTokenSize := by
      simp only [List.length_nil] at hlen
      omega
    cases hb : scanTokensGo sep [] b with
    | error e => simp [scanTokensGo, hge, hb, Except.map]
    | ok toks => simp [scanTokensGo, hge, hb, Except.map]
  | cons c a' ih =>
    have hc : ¬ c = sep := fun hc => h (hc ▸ List.mem_cons_self c a')
    have ha : sep ∉ a' := fun ha => h (List.mem_cons_of_mem c ha)
    have hge : ¬ cur.length ≥ MaxScanTokenSize := by
      simp only [List.length_cons] at hlen
      omega
    have hlen' : (c :: cur).length + a'.length < MaxScanTokenSize := by
      simp only [List.length_cons] at hlen ⊢
      omega
    simp only [List.cons_append, scanTokensGo, if_neg hge, if_neg hc,
      List.append_eq, ih (c :: cur) ha hlen', List.reverse_cons,
      List.append_assoc, List.singleton_append, List.nil_append]

theorem scanTokens_nil (sep : Char) : scanTokens sep [] = .ok [] := rfl

theorem scanTokens_no_sep {sep : Char} {a : List Char} (h : sep ∉ a)
    (hne : a ≠ []) (hlen : a.length < MaxScanTokenSize) :
    scanTokens sep a = .ok [a] := by
  unfold scanTokens
  rw [scanTokensGo_no_sep [] h (by simpa using hlen)]
  simp [hne]

theorem scanTokens_append_sep {sep : Char} {a : List Char} (b : List Char)
    (h : sep ∉ a) (hlen : a.length < MaxScanTokenSize) :
    scanTokens sep (a ++ sep :: b)
      = (scanTokens sep b).map (fun toks => a :: toks) := by
  unfold scanTokens
  rw [scanTokensGo_append_sep [] b h (by simpa using hlen)]
  simp

/-- Scanning a concatenation of separator-terminated separator-free
chunks, each below the token-size cap, recovers exactly those chunks. -/
theorem scanTokens_flatten {sep : Char} (chunks : List (List Char))
    (h : ∀ c ∈ chunks, sep ∉ c ∧ c.length < MaxScanTokenSize) :
    scanTokens sep ((chunks.map (fun c => c ++ [sep])).flatten)
      = .ok chunks := by
  induction chunks with
  | nil => rfl
  | cons ch chs ih =>
    simp only [List.map_cons, List.flatten_cons]
    rw [show (ch ++ [sep]) ++ ((chs.map (fun c => c ++ [sep])).flatten)
        = ch ++ sep :: ((chs.map (fun c => c ++ [sep])).flatten) by simp]
    rw [scanTokens_append_sep _ (h ch (List.mem_cons_self ch chs)).1
      (h ch (List.mem_cons_self ch chs)).2]
    rw [ih (fun c hc => h c (List.mem_cons_of_mem ch hc))]
    rfl

/-- The only error the scanner ever produces is `ErrTooLong`. -/
theorem scanTokensGo_error {sep : Char} :
    ∀ (data cur : List Char) (e : String),
      scanTokensGo sep cur data = .error e → e = ErrTooLong := by
  intro data
  induction data with
  | nil =>
    intro cur e h
    by_cases hcur : cur = []
    · simp [scanTokensGo, hcur] at h
    · by_cases hge : cur.length ≥ MaxScanTokenSize
      · simp only [scanTokensGo, if_neg hcur, if_pos hge,
          Except.error.injEq] at h
        exact h.symm
      · simp [scanTokensGo, hcur, hge] at h
  | cons c rest ih =>
    intro cur e h
    by_cases hge : cur.length ≥ MaxScanTokenSize
    · simp only [scanTokensGo, if_pos hge, Except.error.injEq] at h
      exact h.symm
    · by_cases hc : c = sep
      · simp only [scanTokensGo, if_neg hge, if_pos hc] at h
        cases hrest : scanTokensGo sep [] rest with
        | error e' =>
          rw [hrest] at h
          simp only [Except.error.injEq] at h
          exact h ▸ ih [] e' hrest
        | ok toks =>
          rw [hrest] at h
          cases h
      · simp only [scanTokensGo, if_neg hge, if_neg hc] at h
        exact ih (c :: cur) e h

theorem scanTokens_error {sep : Char} {data : List Char} {e : String}
    (h : scanTokens sep data = .error e) : e = ErrTooLong :=
  scanTokensGo_error data [] e h

/-- A separator-free run as long as the token-size cap makes the scan
fail with `ErrTooLong`, whatever follows the run. -/
theorem scanTokensGo_longrun_error {sep c : Char} (hc : ¬ c = sep) :
    ∀ (n : Nat) (cur rest : List Char),
      MaxScanTokenSize ≤ cur.length + n →
      scanTokensGo sep cur (List.replicate n c ++ rest)
        = .error ErrTooLong := by
  intro n
  induction n with
  | zero =>
    intro cur rest hlen
    have hge : cur.length ≥ MaxScanTokenSize := by
      simpa using hlen
    have hcur : ¬ cur = [] := by
      intro hnil
      rw [hnil] at hge
      simp [MaxScanTokenSize] at hge
    cases rest with
    | nil => simp [scanTokensGo, hcur, hge]
    | cons r rs => simp [scanTokensGo, hge]
  | succ n ih =>
    intro cur rest hlen
    by_cases hge : cur.length ≥ MaxScanTokenSize
    · simp [List.replicate_succ, scanTokensGo, hge]
    · simp only [List.replicate_succ, List.cons_append, scanTokensGo,
        if_neg hge, if_neg hc]
      exact ih (c :: cur) rest (by simp only [List.length_cons]; omega)

/-! ### Normal form of `GenerateMessage` -/

theorem fields_foldl (fs : List (List Char)) (init : List Char) :
    fs.foldl (fun a field => a ++ FieldSeparator :: field) init
      = init ++ (fs.map (fun f => FieldSeparator :: f)).flatten := by
  induction fs generalizing init with
  | nil => simp
  | cons f fs ih => simp [ih, List.append_assoc]

theorem segments_foldl (segs : List Segment) (init : List Char) :
    segs.foldl
      (fun acc segment =>
        (segment.fields.foldl
          (fun a field => a ++ FieldSeparator :: field)
          (acc ++ segment.type)) ++ [SegmentSeparator])
      init
    = init ++ (segs.map (fun s => chunkOf s ++ [SegmentSeparator])).flatten := by
  induction segs generalizing init with
  | nil => simp
  | cons s ss ih =>
    simp only [List.foldl_cons, List.map_cons, List.flatten_cons]
    rw [fields_foldl, ih]
    simp [chunkOf, List.append_assoc]

/-- The serializer output is the concatenation, in segment order, of
each segment's chunk followed by the segment separator. -/
theorem GenerateMessage_eq_flatten (m : HL7Message) :
    GenerateMessage m
      = (m.Segments.map (fun s => chunkOf s ++ [SegmentSeparator])).flatten := by
  unfold GenerateMessage
  rw [segments_foldl]
  rfl

/-! ### Properties of the chunk parser -/

theorem chunkOf_ne_nil {s : Segment} (h : s.type ≠ [] ∨ s.fields ≠ []) :
    chunkOf s ≠ [] := by
  rcases h with h | h
  · cases ht : s.type with
    | nil => exact absurd ht h
    | cons c cs => simp [chunkOf, ht]
  · cases hf : s.fields with
    | nil => exact absurd hf h
    | cons f fs => simp [chunkOf, hf]

theorem SegmentSeparator_not_mem_chunkOf {s : Segment}
    (ht : SegmentSeparator ∉ s.type)
    (hf : ∀ f ∈ s.fields, SegmentSeparator ∉ f) :
    SegmentSeparator ∉ chunkOf s := by
  simp only [chunkOf, List.mem_append, List.mem_flatten, List.mem_map]
  rintro (hmem | ⟨l, ⟨f, hfmem, rfl⟩, hmem⟩)
  · exact ht hmem
  · rcases List.mem_cons.mp hmem with hsep | hmem
    · exact absurd hsep (by decide)
    · exact hf f hfmem hmem

theorem splitOnChar_joined {sep : Char} (fs : List (List Char)) :
    ∀ t : List Char, sep ∉ t → (∀ f ∈ fs, sep ∉ f) →
      splitOnChar sep (t ++ (fs.map (fun f => sep :: f)).flatten) = t :: fs := by
  induction fs with
  | nil =>
    intro t ht _
    simpa using splitOnChar_not_mem ht
  | cons f fs ih =>
    intro t ht hf
    simp only [List.map_cons, List.flatten_cons]
    rw [show t ++ ((sep :: f) ++ (fs.map (fun g => sep :: g)).flatten)
        = t ++ sep :: (f ++ (fs.map (fun g => sep :: g)).flatten) by simp]
    rw [splitOnChar_append_sep _ ht]
    rw [ih f (hf f (List.mem_cons_self f fs))
        (fun g hg => hf g (List.mem_cons_of_mem f hg))]

theorem splitOnChar_chunkOf {s : Segment} (ht : FieldSeparator ∉ s.type)
    (hf : ∀ f ∈ s.fields, FieldSeparator ∉ f) :
    splitOnChar FieldSeparator (chunkOf s) = s.type :: s.fields :=
  splitOnChar_joined s.fields s.type ht hf

theorem parseChunks_total (chunks : List (List Char)) :
    ∃ segs, parseChunks chunks = .ok segs := by
  induction chunks with
  | nil => exact ⟨[], rfl⟩
  | cons chunk rest ih =>
    obtain ⟨segs, hs⟩ := ih
    by_cases hlen : chunk.length = 0
    · exact ⟨segs, by simp only [parseChunks, if_pos hlen]; exact hs⟩
    · cases hsp : splitOnChar FieldSeparator chunk with
      | nil => exact absurd hsp (splitOnChar_ne_nil _ _)
      | cons t fs =>
        exact ⟨⟨t, fs⟩ :: segs, by
          simp only [parseChunks, if_neg hlen, hsp, hs]⟩

theorem parseChunks_nonempty :
    ∀ (chunks : List (List Char)) (segs : List Segment),
      parseChunks chunks = .ok segs →
      ∀ s ∈ segs, s.type ≠ [] ∨ s.fields ≠ [] := by
  intro chunks
  induction chunks with
  | nil =>
    intro segs h s hs
    simp only [parseChunks, Except.ok.injEq] at h
    subst h
    cases hs
  | cons chunk rest ih =>
    intro segs h s hs
    by_cases hlen : chunk.length = 0
    · rw [show parseChunks (chunk :: rest) = parseChunks rest by
        simp only [parseChunks, if_pos hlen]] at h
      exact ih segs h s hs
    · have hchunk : chunk ≠ [] := fun hc => hlen (by simp [hc])
      cases hsp : splitOnChar FieldSeparator chunk with
      | nil => exact absurd hsp (splitOnChar_ne_nil _ _)
      | cons t fs =>
        simp only [parseChunks, if_neg hlen, hsp] at h
        cases hrest : parseChunks rest with
        | error e => rw [hrest] at h; cases h
        | ok segs' =>
          rw [hrest] at h
          have hsegs := Except.ok.inj h
          subst hsegs
          rcases List.mem_cons.mp hs with hseq | hmem
          · subst hseq
            exact splitOnChar_head_or_tail hchunk hsp
          · exact ih segs' hrest s hmem

theorem parseChunks_map_chunkOf (segs : List Segment)
    (h : ∀ s ∈ segs, FieldSeparator ∉ s.type ∧
      (∀ f ∈ s.fields, FieldSeparator ∉ f) ∧
      (s.type ≠ [] ∨ s.fields ≠ [])) :
    parseChunks (segs.map chunkOf) = .ok segs := by
  induction segs with
  | nil => rfl
  | cons s ss ih =>
    obtain ⟨ht, hf, hne⟩ := h s (List.mem_cons_self s ss)
    have hlen : ¬ (chunkOf s).length = 0 := by
      simpa [List.length_eq_zero] using chunkOf_ne_nil hne
    simp only [List.map_cons, parseChunks, if_neg hlen,
      splitOnChar_chunkOf ht hf,
      ih (fun s hs => h s (List.mem_cons_of_mem _ hs))]

theorem parseChunks_inverse (chunks : List (List Char))
    (h : ∀ c ∈ chunks, c ≠ []) :
    ∃ segs, parseChunks chunks = .ok segs ∧ segs.map chunkOf = chunks := by
  induction chunks with
  | nil => exact ⟨[], rfl, rfl⟩
  | cons chunk rest ih =>
    obtain ⟨segs, hok, hmap⟩ := ih (fun c hc => h c (List.mem_cons_of_mem _ hc))
    have hchunk : chunk ≠ [] := h chunk (List.mem_cons_self _ _)
    have hlen : ¬ chunk.length = 0 := fun hc => hchunk (by
      simpa [List.length_eq_zero] using hc)
    cases hsp : splitOnChar FieldSeparator chunk with
    | nil => exact absurd hsp (splitOnChar_ne_nil _ _)
    | cons t fs =>
      refine ⟨⟨t, fs⟩ :: segs, ?_, ?_⟩
      · simp only [parseChunks, if_neg hlen, hsp, hok]
      · simp only [List.map_cons, hmap]
        have hj := joinParts_splitOnChar FieldSeparator chunk
        rw [hsp] at hj
        rw [show chunkOf ⟨t, fs⟩ = joinParts FieldSeparator (t :: fs) from rfl,
          hj]

theorem map_chunk_sep (segs : List Segment) :
    segs.map (fun s => chunkOf s ++ [SegmentSeparator])
      = (segs.map chunkOf).map (fun c => c ++ [SegmentSeparator]) := by
  rw [List.map_map]
  rfl

theorem chunks_no_sep {segs : List Segment}
    (h : ∀ s ∈ segs, (SegmentSeparator ∉ s.type ∧
      ∀ f ∈ s.fields, SegmentSeparator ∉ f) ∧
      (chunkOf s).length < MaxScanTokenSize) :
    ∀ c ∈ segs.map chunkOf,
      SegmentSeparator ∉ c ∧ c.length < MaxScanTokenSize := by
  intro c hc
  obtain ⟨s, hs, rfl⟩ := List.mem_map.mp hc
  exact ⟨SegmentSeparator_not_mem_chunkOf (h s hs).1.1 (h s hs).1.2,
    (h s hs).2⟩

theorem chunks_ne_nil {segs : List Segment}
    (h : ∀ s ∈ segs, s.type ≠ [] ∨ s.fields ≠ []) :
    ∀ c ∈ segs.map chunkOf, c ≠ [] := by
  intro c hc
  obtain ⟨s, hs, rfl⟩ := List.mem_map.mp hc
  exact chunkOf_ne_nil (h s hs)

/-- Parsing serialized output reduces to running the chunk parser on the
per-segment chunks, provided no type or field contains the segment
separator and each serialized segment stays below the scanner's
token-size cap. -/
theorem parse_generate_eq_parseChunks (m : HL7Message)
    (h : ∀ s ∈ m.Segments, (SegmentSeparator ∉ s.type ∧
      ∀ f ∈ s.fields, SegmentSeparator ∉ f) ∧
      (chunkOf s).length < MaxScanTokenSize) :
    ParseHL7Message (GenerateMessage m)
      = match parseChunks (m.Segments.map chunkOf) with
        | .error e => .error e
        | .ok segs => .ok ⟨segs⟩ := by
  unfold ParseHL7Message
  rw [GenerateMessage_eq_flatten, map_chunk_sep,
    scanTokens_flatten _ (chunks_no_sep h)]

/-- Serializing a message of one field-less segment yields its type
followed by the segment separator. -/
theorem generate_single_type (t : List Char) :
    GenerateMessage ⟨[⟨t, []⟩]⟩ = t ++ [SegmentSeparator] := by
  rw [GenerateMessage_eq_flatten]
  simp [chunkOf]

/-- Parsing a cap-sized separator-free run fails with `ErrTooLong`. -/
theorem parse_replicate_error {c : Char} (hc : ¬ c = SegmentSeparator) :
    ParseHL7Message (List.replicate MaxScanTokenSize c ++ [SegmentSeparator])
      = .error ErrTooLong := by
  unfold ParseHL7Message scanTokens
  rw [scanTokensGo_longrun_error hc MaxScanTokenSize [] [SegmentSeparator]
    (by simp)]

/-! ### Claim theorems -/

/-- C1 counterexample: two premise-satisfying inputs defeat the claim.
The message with one segment whose type is empty and whose field list is
empty has no `'\r'` and no `'|'` in its strings, yet serializes to a
bare segment separator, which parses back to zero segments.  And the
message with one segment whose type is 65536 copies of `'A'` also meets
the premise, yet its serialization makes the scanner fail with
`bufio.ErrTooLong`, so the parse does not even succeed. -/
theorem roundtrip_counterexample :
    ((∀ s ∈ (⟨[⟨[], []⟩]⟩ : HL7Message).Segments,
       SegmentSeparator ∉ s.type ∧ FieldSeparator ∉ s.type ∧
         ∀ f ∈ s.fields, SegmentSeparator ∉ f ∧ FieldSeparator ∉ f) ∧
     ParseHL7Message (GenerateMessage ⟨[⟨[], []⟩]⟩) = .ok ⟨[]⟩ ∧
     ParseHL7Message (GenerateMessage ⟨[⟨[], []⟩]⟩)
       ≠ .ok (⟨[⟨[], []⟩]⟩ : HL7Message)) ∧
    (SegmentSeparator ∉ List.replicate MaxScanTokenSize 'A' ∧
     FieldSeparator ∉ List.replicate MaxScanTokenSize 'A' ∧
     List.replicate MaxScanTokenSize 'A' ≠ [] ∧
     ParseHL7Message
       (GenerateMessage ⟨[⟨List.replicate MaxScanTokenSize 'A', []⟩]⟩)
       = .error ErrTooLong) := by
  refine ⟨by decide, ?_, ?_, ?_, ?_⟩
  · intro hmem
    exact absurd (List.mem_replicate.mp hmem).2 (by decide)
  · intro hmem
    exact absurd (List.mem_replicate.mp hmem).2 (by decide)
  · intro hnil
    have hlen := congrArg List.length hnil
    simp only [List.length_replicate, List.length_nil] at hlen
    exact absurd hlen (by decide)
  · rw [generate_single_type, parse_replicate_error (by decide)]

/-- C1 (amended): for every Message whose segment types and fields
contain no segment separator and no field separator, in which every
segment has a non-empty type or at least one field, and whose serialized
segments each stay below the scanner's 64 KiB token cap, parsing the
serialized message succeeds and returns a message structurally equal to
the original. -/
theorem parse_generateMessage_roundtrip (m : HL7Message)
    (h : ∀ s ∈ m.Segments,
      (SegmentSeparator ∉ s.type ∧ FieldSeparator ∉ s.type ∧
        ∀ f ∈ s.fields, SegmentSeparator ∉ f ∧ FieldSeparator ∉ f) ∧
      (s.type ≠ [] ∨ s.fields ≠ []) ∧
      (chunkOf s).length < MaxScanTokenSize) :
    ParseHL7Message (GenerateMessage m) = .ok m := by
  rw [parse_generate_eq_parseChunks m
    (fun s hs => ⟨⟨(h s hs).1.1, fun f hf => ((h s hs).1.2.2 f hf).1⟩,
      (h s hs).2.2⟩)]
  rw [parseChunks_map_chunkOf m.Segments
    (fun s hs => ⟨(h s hs).1.2.1, fun f hf => ((h s hs).1.2.2 f hf).2,
      (h s hs).2.1⟩)]

theorem parse_generateMessage_roundtrip_witness :
    ParseHL7Message (GenerateMessage ⟨[⟨"MSH".toList, ["a".toList]⟩]⟩)
      = .ok ⟨[⟨"MSH".toList, ["a".toList]⟩]⟩ :=
  parse_generateMessage_roundtrip ⟨[⟨"MSH".toList, ["a".toList]⟩]⟩ (by decide)

/-- C2 counterexample: re-serialization is not idempotent for every
Message.  A message with one empty segment serializes to a bare segment
separator but re-serializes to the empty string; a message whose field
contains `'\r'` loses the empty chunk the stray separator creates; and a
message with a 65536-character segment type does not even re-parse — the
scanner fails with `bufio.ErrTooLong`. -/
theorem reserialize_counterexample :
    GenerateMessage ⟨[⟨[], []⟩]⟩ = [SegmentSeparator] ∧
    ParseHL7Message [SegmentSeparator] = .ok ⟨[]⟩ ∧
    GenerateMessage (⟨[]⟩ : HL7Message) ≠ [SegmentSeparator] ∧
    ParseHL7Message (GenerateMessage ⟨[⟨"T".toList, ["a\r".toList]⟩]⟩)
      = .ok ⟨[⟨"T".toList, ["a".toList]⟩]⟩ ∧
    GenerateMessage ⟨[⟨"T".toList, ["a".toList]⟩]⟩
      ≠ GenerateMessage ⟨[⟨"T".toList, ["a\r".toList]⟩]⟩ ∧
    ParseHL7Message
      (GenerateMessage ⟨[⟨List.replicate MaxScanTokenSize 'B', []⟩]⟩)
      = .error ErrTooLong := by
  refine ⟨by decide, by decide, by decide, by decide, by decide, ?_⟩
  rw [generate_single_type, parse_replicate_error (by decide)]

/-- C2 (amended): for every Message whose segment types and fields
contain no segment separator, in which every segment has a non-empty
type or at least one field, and whose serialized segments each stay
below the scanner's 64 KiB token cap, parsing the serialized message
succeeds and re-serializing the parse result reproduces the serialized
text exactly (field separators inside field text are allowed: they
re-split but re-serialize to the same text). -/
theorem generateMessage_reserialize (m : HL7Message)
    (h : ∀ s ∈ m.Segments,
      (SegmentSeparator ∉ s.type ∧ ∀ f ∈ s.fields, SegmentSeparator ∉ f) ∧
      (s.type ≠ [] ∨ s.fields ≠ []) ∧
      (chunkOf s).length < MaxScanTokenSize) :
    ∃ m', ParseHL7Message (GenerateMessage m) = .ok m' ∧
      GenerateMessage m' = GenerateMessage m := by
  obtain ⟨segs, hok, hmap⟩ := parseChunks_inverse (m.Segments.map chunkOf)
    (chunks_ne_nil (fun s hs => (h s hs).2.1))
  refine ⟨⟨segs⟩, ?_, ?_⟩
  · rw [parse_generate_eq_parseChunks m
      (fun s hs => ⟨(h s hs).1, (h s hs).2.2⟩), hok]
  · rw [GenerateMessage_eq_flatten ⟨segs⟩, GenerateMessage_eq_flatten m,
      map_chunk_sep, map_chunk_sep, hmap]

theorem generateMessage_reserialize_witness :
    ∃ m', ParseHL7Message
        (GenerateMessage ⟨[⟨"PID".toList, ["a|b".toList]⟩]⟩) = .ok m' ∧
      GenerateMessage m'
        = GenerateMessage ⟨[⟨"PID".toList, ["a|b".toList]⟩]⟩ :=
  generateMessage_reserialize ⟨[⟨"PID".toList, ["a|b".toList]⟩]⟩ (by decide)

/-- C3: `GenerateMessage` is total (a Lean function with no error path)
and its output is exactly the concatenation, in segment order, of each
segment's type, `'|' ++ field` for each field in order, and one `'\r'`
after the last field of each segment. -/
theorem generateMessage_spec (m : HL7Message) :
    GenerateMessage m = serializeSpec m := by
  rw [GenerateMessage_eq_flatten]
  unfold serializeSpec chunkOf
  simp [List.append_assoc]

/-- C4: the `"invalid segment format"` branch of the parser is
unreachable — on every input the parse either succeeds or fails with the
scanner's `ErrTooLong`, never with the format error, because splitting
any chunk on the field separator always yields at least one token. -/
theorem parseHL7Message_never_format_error (s : List Char) :
    (∃ m, ParseHL7Message s = .ok m) ∨
      ParseHL7Message s = .error ErrTooLong := by
  unfold ParseHL7Message
  cases hscan : scanTokens SegmentSeparator s with
  | error e =>
    right
    simp only [scanTokens_error hscan]
  | ok toks =>
    left
    obtain ⟨segs, hok⟩ := parseChunks_total toks
    exact ⟨⟨segs⟩, by simp only [hok]⟩

/-- C5: parsing the empty input succeeds and yields a message with zero
segments. -/
theorem parseHL7Message_empty : ParseHL7Message "".toList = .ok ⟨[]⟩ := by
  decide

/-- C6: parsing `"MSH|a|b\r\rPID|c\r"` succeeds and yields exactly two
segments, `MSH` with fields `["a","b"]` and `PID` with fields `["c"]`;
the consecutive segment separators produce no empty segment. -/
theorem parseHL7Message_separator_tolerance :
    ParseHL7Message "MSH|a|b\r\rPID|c\r".toList
      = .ok ⟨[⟨"MSH".toList, ["a".toList, "b".toList]⟩,
              ⟨"PID".toList, ["c".toList]⟩]⟩ := by
  decide

/-- C7: parsing `"MSH|a"` (no trailing separator) succeeds and yields
one segment `MSH` with fields `["a"]`; parsing `"MSH|a\r"` (trailing
separator) yields the same message with no spurious empty segment. -/
theorem parseHL7Message_missing_terminal :
    ParseHL7Message "MSH|a".toList
      = .ok ⟨[⟨"MSH".toList, ["a".toList]⟩]⟩ ∧
    ParseHL7Message "MSH|a\r".toList
      = .ok ⟨[⟨"MSH".toList, ["a".toList]⟩]⟩ := by
  decide

/-- C8: parsing `"ABC"` (a chunk with no field separator) succeeds and
yields one segment of type `ABC` with zero fields. -/
theorem parseHL7Message_type_only :
    ParseHL7Message "ABC".toList = .ok ⟨[⟨"ABC".toList, []⟩]⟩ := by
  decide

/-- C9: serializing the `AddSegment`-built two-segment scenario message
and re-parsing reproduces the original two segments, and the `PID`
segment's field at index 4 is `"Doe^John"` with the `'^'` inside the
field preserved verbatim. -/
theorem scenario_roundtrip :
    ParseHL7Message (GenerateMessage scenarioMessage) = .ok scenarioMessage ∧
    scenarioMessage.Segments.length = 2 ∧
    (scenarioMessage.Segments.getD 1 ⟨[], []⟩).fields.getD 4 []
      = "Doe^John".toList := by
  decide

/-- C10: every segment of a successfully parsed message has a non-empty
type or a non-empty field list; the parser never produces a segment that
is empty in both. -/
theorem parseHL7Message_no_empty_segment (s : List Char) (m : HL7Message)
    (h : ParseHL7Message s = .ok m) :
    ∀ seg ∈ m.Segments, seg.type ≠ [] ∨ seg.fields ≠ [] := by
  unfold ParseHL7Message at h
  cases hscan : scanTokens SegmentSeparator s with
  | error e =>
    simp only [hscan] at h
    exact Except.noConfusion h
  | ok toks =>
    simp only [hscan] at h
    cases hpc : parseChunks toks with
    | error e =>
      simp only [hpc] at h
      exact Except.noConfusion h
    | ok segs =>
      simp only [hpc] at h
      have hm := Except.ok.inj h
      subst hm
      exact parseChunks_nonempty _ segs hpc

theorem parseHL7Message_no_empty_segment_witness :
    (Segment.mk "MSH".toList []).type ≠ []
      ∨ (Segment.mk "MSH".toList []).fields ≠ [] :=
  parseHL7Message_no_empty_segment "MSH".toList
    ⟨[⟨"MSH".toList, []⟩]⟩ (by decide) ⟨"MSH".toList, []⟩ (by decide)

end HL7
